import Mathlib

/-
  Verification of the link_to_markdown pipeline: a shallow embedding of the
  metadata ledger (src/metadata/extractor.py), the text and url utilities
  (src/utils/text_utils.py, src/utils/url_utils.py) and the conversion
  pipeline (src/converters/html_converter.py), together with proofs of the
  specification's claims about them.

  Modelling conventions:
  - Python strings are Lean `String` / `List Char`; regular expressions are
    translated into explicit character-list functions.
  - The filesystem of per-domain ledger files is an association list from
    domain to the parsed list of rows; an absent key models an absent file.
  - The external fetch/transform collaborator is an oracle value
    `Except String (List String)`; per-URL unexpected exceptions are an
    oracle list of Booleans consulted where the per-URL try block can fail.
  - A failing file write in add_metadata is modelled by a Boolean argument
    standing for whether the `open(...write...)` block succeeds.
-/

/-- One row of a domain ledger (models ArticleMetadata of src/models/metadata.py,
with `path` kept as its string form, as written to the CSV). -/
structure ArticleMetadata where
  path : String
  title : String
  url : String
  domain : String
  status : String
  error_str : String
deriving DecidableEq, Repr

/-- A converted document (models Document of src/models/document.py). -/
structure Document where
  url : String
  content : String
  title : String
  directory : String
deriving DecidableEq, Repr

/-- The ledger filesystem: domain ↦ parsed rows of `<output_dir>/<domain>/meta.csv`. -/
abbrev FS := List (String × List ArticleMetadata)

/-- Association-list lookup (string keys, first match). -/
def alGet {α : Type} : List (String × α) → String → Option α
  | [], _ => none
  | (k', v) :: rest, k => if k' = k then some v else alGet rest k

/-- Association-list update: replace the value of an existing key, else add the key. -/
def alSet {α : Type} : List (String × α) → String → α → List (String × α)
  | [], k, v => [(k, v)]
  | (k', v') :: rest, k, v =>
    if k' = k then (k, v) :: rest else (k', v') :: alSet rest k v

/-- Model of Python `set.add` on a list used with set semantics. -/
def setAdd (s : List String) (x : String) : List String :=
  if x ∈ s then s else x :: s

/-- First row with the given url (models dict-style access keyed by url). -/
def findRow : List ArticleMetadata → String → Option ArticleMetadata
  | [], _ => none
  | r :: rest, u => if r.url = u then some r else findRow rest u

/-- Python dict assignment `d[k] = v` on an insertion-ordered dict:
replace in place if the key exists, else append at the end. -/
def dictInsert : List (String × ArticleMetadata) → String → ArticleMetadata →
    List (String × ArticleMetadata)
  | [], k, v => [(k, v)]
  | (k', v') :: rest, k, v =>
    if k' = k then (k, v) :: rest else (k', v') :: dictInsert rest k v

/-- Python `{row["url"]: row for row in rows}`: an insertion-ordered dict keyed
by url, built left to right. -/
def dictOfRows (rows : List ArticleMetadata) : List (String × ArticleMetadata) :=
  rows.foldl (fun d r => dictInsert d r.url r) []

/-- The rows written back by add_metadata: read the old rows into a dict keyed
by url, set the entry for the new row's url, and write out the values. -/
def mergeRows (old : List ArticleMetadata) (a : ArticleMetadata) : List ArticleMetadata :=
  (dictInsert (dictOfRows old) a.url a).map Prod.snd

/-- The rows of a domain's ledger file (an absent file reads as no rows). -/
def rowsOf (fs : FS) (domain : String) : List ArticleMetadata :=
  (alGet fs domain).getD []

/- ---------- text_utils.py ---------- -/

/-- Python regex `\w` restricted to ASCII: letters, digits and underscore. -/
def isWordChar (c : Char) : Bool := c.isAlphanum || c = '_'

/-- Python regex `\s` (ASCII): space, tab, newline, carriage return,
vertical tab, form feed. -/
def pyIsSpace (c : Char) : Bool :=
  c = ' ' || c = '\t' || c = '\n' || c = '\r' || c = '\x0b' || c = '\x0c'

/-- A character matched by `[-\s]`. -/
def isSep (c : Char) : Bool := pyIsSpace c || c = '-'

/-- `re.sub(r"[^\w\s-]", "", title)`: keep only word characters, whitespace
and hyphens. -/
def removeSpecial (l : List Char) : List Char :=
  l.filter (fun c => isWordChar c || pyIsSpace c || c = '-')

/-- Worker for `re.sub(r"[-\s]+", "_", ...)`: the flag records whether we are
inside a run of separator characters already replaced by an underscore. -/
def collapseAux : Bool → List Char → List Char
  | _, [] => []
  | inSep, c :: rest =>
    if isSep c then
      if inSep then collapseAux true rest
      else '_' :: collapseAux true rest
    else c :: collapseAux false rest

/-- `re.sub(r"[-\s]+", "_", ...)`: each maximal run of hyphens/whitespace
becomes a single underscore. -/
def collapse (l : List Char) : List Char := collapseAux false l

/-- Python `str.strip()`: drop leading and trailing whitespace. -/
def pyStripL (l : List Char) : List Char :=
  ((l.dropWhile pyIsSpace).reverse.dropWhile pyIsSpace).reverse

/-- Python `str.lower()` on the ASCII fragment. -/
def toLowerL (l : List Char) : List Char := l.map Char.toLower

/-- to_snake_case of src/utils/text_utils.py on character lists:
remove specials, collapse separator runs to `_`, strip whitespace, lowercase. -/
def to_snake_caseL (l : List Char) : List Char :=
  toLowerL (pyStripL (collapse (removeSpecial l)))

/-- to_snake_case of src/utils/text_utils.py. -/
def to_snake_case (s : String) : String := ⟨to_snake_caseL s.data⟩

/-- Python `content.split("\n")`. -/
def splitOnNl : List Char → List (List Char)
  | [] => [[]]
  | c :: rest =>
    if c = '\n' then [] :: splitOnNl rest
    else
      match splitOnNl rest with
      | [] => [[c]]
      | l :: ls => (c :: l) :: ls

/-- Does the line start with `"# "`. -/
def startsWithH1 : List Char → Bool
  | '#' :: ' ' :: _ => true
  | _ => false

/-- Bool test for character membership in a line. -/
def hasChar (c : Char) (l : List Char) : Bool := decide (c ∈ l)

/-- extract_title_from_content of src/utils/text_utils.py.  The final
fallback indexes `lines[0]`, which in Python raises IndexError when the
scanned window is empty; that fallible access is the `Option`. -/
def extract_title_from_content (content : String) (max_lines : Nat := 20) :
    Option String :=
  let lines := (splitOnNl content.data).take max_lines
  match lines.find? (fun l => startsWithH1 l && !(hasChar '[' l)) with
  | some l => some ⟨to_snake_caseL (l.drop 2)⟩
  | none =>
    match lines.find? (fun l =>
        !(pyStripL l).isEmpty && !(hasChar '[' (pyStripL l)) &&
          !(hasChar ']' (pyStripL l))) with
    | some l => some ⟨to_snake_caseL (pyStripL l)⟩
    | none => lines.head?.map (fun l => ⟨to_snake_caseL (pyStripL l)⟩)

/- ---------- url_utils.py ---------- -/

/-- A character allowed in a URL scheme after the first letter. -/
def schemeChar (c : Char) : Bool := c.isAlphanum || c = '+' || c = '-' || c = '.'

/-- urllib scheme splitting: if the text before the first `:` is a valid
scheme (a letter followed by scheme characters), return the rest, else the
whole url. -/
def afterScheme (url : List Char) : List Char :=
  match url.findIdx? (fun c => decide (c = ':')) with
  | none => url
  | some i =>
    if i = 0 then url
    else
      let pre := url.take i
      if pre.all schemeChar && (pre.headD ' ').isAlpha then url.drop (i + 1)
      else url

/-- urlparse(url).netloc: present only when the remainder after the scheme
starts with `//`; runs up to the first `/`, `?` or `#`. -/
def netlocOf (url : String) : String :=
  match afterScheme url.data with
  | '/' :: '/' :: t =>
    ⟨t.takeWhile (fun c => !(decide (c = '/') || decide (c = '?') || decide (c = '#')))⟩
  | _ => ""

/-- `re.sub(r"^www\.", "", domain)`: remove one leading `www.` when present
(the anchored pattern can match only once, at the start). -/
def stripWww (d : List Char) : List Char :=
  if d.take 4 = ['w', 'w', 'w', '.'] then d.drop 4 else d

/-- `re.sub(r"\.[^.]+$", "", domain)`: remove the suffix matching a dot
followed by a nonempty run of non-dots at the end, when it exists. -/
def stripTld (d : List Char) : List Char :=
  let r := d.reverse
  let seg := r.takeWhile (fun c => !(decide (c = '.')))
  if seg.isEmpty then d
  else
    match r.drop seg.length with
    | '.' :: rest2 => rest2.reverse
    | _ => d

/-- get_directory_from_url of src/utils/url_utils.py. -/
def get_directory_from_url (url : String) : String :=
  ⟨stripTld (stripWww (netlocOf url).data)⟩

/- ---------- metadata/extractor.py ---------- -/

/-- In-memory state of MetadataManager: the skip-existing toggle and the
per-domain cache of successfully processed urls. -/
structure MetadataManager where
  skip_existing : Bool
  processed_urls : List (String × List String)
deriving DecidableEq, Repr

/-- A fresh MetadataManager (empty cache). -/
def initManager (skip : Bool) : MetadataManager :=
  { skip_existing := skip, processed_urls := [] }

/-- The urls of the rows recorded with status success. -/
def successUrlsOfFile (rows : List ArticleMetadata) : List String :=
  (rows.filter (fun r => decide (r.status = "success"))).map (fun r => r.url)

/-- load_domain_metadata: if the domain's file is absent record an empty set,
else record the urls of the rows whose status is success. -/
def load_domain_metadata (m : MetadataManager) (fs : FS) (domain : String) :
    MetadataManager :=
  match alGet fs domain with
  | none => { m with processed_urls := alSet m.processed_urls domain [] }
  | some rows =>
    { m with processed_urls := alSet m.processed_urls domain (successUrlsOfFile rows) }

/-- should_process_url: lazily load the domain on first reference, then
process unless skip-existing is on and the url is cached as successful. -/
def should_process_url (m : MetadataManager) (fs : FS) (url domain : String) :
    Bool × MetadataManager :=
  let m1 := if (alGet m.processed_urls domain).isNone
    then load_domain_metadata m fs domain else m
  (!m1.skip_existing || !(decide (url ∈ (alGet m1.processed_urls domain).getD [])), m1)

/-- add_metadata: read the domain's rows, merge the new row keyed by url, and
try to rewrite the file.  `writeOk` is whether the write succeeds; when it
raises, the except clause logs and the cache update after the write is
skipped, leaving manager and filesystem unchanged. -/
def add_metadata (m : MetadataManager) (fs : FS) (a : ArticleMetadata)
    (writeOk : Bool) : MetadataManager × FS :=
  let old := rowsOf fs a.domain
  let merged := mergeRows old a
  if writeOk then
    let fs1 := alSet fs a.domain merged
    let cur := (alGet m.processed_urls a.domain).getD []
    let m1 :=
      if a.status = "success" then
        { m with processed_urls := alSet m.processed_urls a.domain (setAdd cur a.url) }
      else m
    (m1, fs1)
  else (m, fs)

/-- create_error_metadata of src/metadata/extractor.py. -/
def create_error_metadata (url domain error : String) (status : String := "failed") :
    ArticleMetadata :=
  { path := "failed_downloads.md", title := "failed_download", url := url,
    domain := domain, status := status, error_str := error }

/-- A sequence of add_metadata calls whose file writes succeed. -/
def runAdds (m : MetadataManager) (fs : FS) (ms : List ArticleMetadata) :
    MetadataManager × FS :=
  ms.foldl (fun p a => add_metadata p.1 p.2 a true) (m, fs)

/- ---------- converters/html_converter.py ---------- -/

/-- Lowercased characters of the page content. -/
def pyLower (s : String) : List Char := s.data.map Char.toLower

/-- Python `pat in hay` substring containment on character lists. -/
def containsSubL (hay pat : List Char) : Bool :=
  (List.range (hay.length + 1)).any (fun i => pat.isPrefixOf (hay.drop i))

/-- The rate-limit heuristic of _process_urls_batch: the lowercased content
contains "too many requests" or "rate limit". -/
def isRateLimited (content : String) : Bool :=
  containsSubL (pyLower content) "too many requests".data ||
    containsSubL (pyLower content) "rate limit".data

/-- Lazy match of `(\(.*?\))` at the head of the input: on success, the
captured group (parentheses included) and the rest. -/
def parenMatch : List Char → Option (List Char × List Char)
  | '(' :: rest =>
    ((List.range (rest.length + 1)).filterMap (fun m =>
      let inner := rest.take m
      if hasChar '\n' inner then none
      else if (rest.drop m).take 1 = [')'] then
        some ('(' :: (inner ++ [')']), rest.drop (m + 1))
      else none)).head?
  | _ => none

/-- Lazy match of `(.*?)\]\](\(.*?\))` at the head of the input (the part of
the double-bracket pattern after the opening `[[`), with backtracking over
the first group: on success, group 1, group 2 and the rest. -/
def bbMatch (t : List Char) : Option (List Char × List Char × List Char) :=
  ((List.range (t.length + 1)).filterMap (fun k =>
    let g1 := t.take k
    if hasChar '\n' g1 then none
    else if [']', ']'].isPrefixOf (t.drop k) then
      match parenMatch (t.drop (k + 2)) with
      | some (g2, rest) => some (g1, g2, rest)
      | none => none
    else none)).head?

/-- `re.sub(r"\[\[(.*?)\]\](\(.*?\))", r"[\1]\2", content)`, scanning left to
right; the fuel is an upper bound on the number of scan steps. -/
def pyRegexSubFuel : Nat → List Char → List Char
  | 0, l => l
  | _ + 1, [] => []
  | fuel + 1, '[' :: '[' :: t =>
    (match bbMatch t with
    | some (g1, g2, rest) =>
      '[' :: (g1 ++ (']' :: (g2 ++ pyRegexSubFuel fuel rest)))
    | none => '[' :: pyRegexSubFuel fuel ('[' :: t))
  | fuel + 1, c :: t => c :: pyRegexSubFuel fuel t

/-- The double-bracket rewrite `[[text]](link)` → `[text](link)`. -/
def unwrapDoubleBrackets (s : String) : String :=
  ⟨pyRegexSubFuel (s.data.length + 1) s.data⟩

/-- Outcome of the per-URL body of the loop in _process_urls_batch. -/
inductive ItemResult where
  | rateLimited : ItemResult
  | failed : ItemResult
  | success : Document → ArticleMetadata → ItemResult
deriving DecidableEq, Repr

/-- The per-URL body: rate-limit check first (it can raise nothing), then the
failure oracle for the remaining fallible steps, then post-processing, title
and domain derivation and Document construction. -/
def processItem (url content : String) (err : Bool) : ItemResult :=
  if isRateLimited content then .rateLimited
  else if err then .failed
  else
    let content2 := unwrapDoubleBrackets content
    let domain := get_directory_from_url url
    match extract_title_from_content content2 with
    | none => .failed
    | some title =>
      .success
        { url := url, content := content2, title := title, directory := domain }
        { path := title ++ ".md", title := title, url := url, domain := domain,
          status := "success", error_str := "" }

/-- The four accumulators of the loop in _process_urls_batch, each in input
order. -/
structure BatchRes where
  documents : List Document
  successfulMeta : List ArticleMetadata
  failedUrls : List String
  rateLimitedUrls : List String
deriving DecidableEq, Repr

/-- The loop of _process_urls_batch over (url, transformed content, failure
oracle) triples. -/
def processBatchItems : List (String × String × Bool) → BatchRes
  | [] => ⟨[], [], [], []⟩
  | (url, content, err) :: rest =>
    let r := processBatchItems rest
    match processItem url content err with
    | .rateLimited => { r with rateLimitedUrls := url :: r.rateLimitedUrls }
    | .failed => { r with failedUrls := url :: r.failedUrls }
    | .success doc meta =>
      { r with documents := doc :: r.documents,
               successfulMeta := meta :: r.successfulMeta }

/-- The ledger entries queued by _process_urls_batch, in the order the code
hands them to add_metadata: rate-limited urls, then failed urls, then the
successful metadata. -/
def queuedEntries (r : BatchRes) : List ArticleMetadata :=
  (r.rateLimitedUrls.map (fun u =>
    create_error_metadata u (get_directory_from_url u)
      "Rate limited - too many requests" "rate_limited")) ++
  (r.failedUrls.map (fun u =>
    create_error_metadata u (get_directory_from_url u) "Processing failed")) ++
  r.successfulMeta

/-- Pair each url with its transformed content and failure oracle. -/
def zip3 (urls contents : List String) (errs : List Bool) :
    List (String × String × Bool) :=
  urls.zip (contents.zip errs)

/-- _filter_urls: partition the urls by should_process_url, threading the
manager's lazily loaded cache. -/
def filter_urls (m : MetadataManager) (fs : FS) :
    List String → List String × List String × MetadataManager
  | [] => ([], [], m)
  | url :: rest =>
    let s := should_process_url m fs url (get_directory_from_url url)
    let r := filter_urls s.2 fs rest
    if s.1 then (url :: r.1, r.2.1, r.2.2) else (r.1, url :: r.2.1, r.2.2)

/-- convert_urls: filter already-processed urls, run the batch on the oracle's
fetch/transform result, persist the queued entries, and return the documents.
A batch error (`Except.error`) is caught and yields no documents and no
ledger writes. -/
def convert_urls (m : MetadataManager) (fs : FS) (urls : List String)
    (fetched : Except String (List String)) (errs : List Bool) :
    List Document × MetadataManager × FS :=
  if urls.isEmpty then ([], m, fs)
  else
    let f := filter_urls m fs urls
    if f.1.isEmpty then ([], f.2.2, fs)
    else
      match fetched with
      | Except.error _ => ([], f.2.2, fs)
      | Except.ok contents =>
        let r := processBatchItems (zip3 f.1 contents errs)
        let p := runAdds f.2.2 fs (queuedEntries r)
        (r.documents, p.1, p.2)

/- ---------- spec-side definitions for refinement claims ---------- -/

/-- The urls recorded with status success in a domain's ledger file. -/
def ledgerSuccessUrls (fs : FS) (domain : String) : List String :=
  successUrlsOfFile (rowsOf fs domain)

/-- The latest element of the add sequence addressed to this domain and url. -/
def lastAdd : List ArticleMetadata → String → String → Option ArticleMetadata
  | [], _, _ => none
  | a :: rest, d, u =>
    match lastAdd rest d u with
    | some b => some b
    | none => if a.domain = d ∧ a.url = u then some a else none

/-- Drop leading and trailing underscores. -/
def trimUnderscores (l : List Char) : List Char :=
  ((l.dropWhile (fun c => decide (c = '_'))).reverse.dropWhile
    (fun c => decide (c = '_'))).reverse

/-- Modelled from the claim's words for to_snake_case: remove characters
outside word characters, whitespace and hyphen, collapse separator runs into
single underscores, lowercase, and trim leading/trailing underscores. -/
def to_snake_case_claim (s : String) : String :=
  ⟨trimUnderscores (toLowerL (collapse (removeSpecial s.data)))⟩

/-- The amended description of to_snake_case: same pipeline but the final
Python strip removes only whitespace, of which none remains, so leading and
trailing underscores are kept. -/
def to_snake_case_amended (s : String) : String :=
  ⟨toLowerL (collapse (removeSpecial s.data))⟩

/-- The title choice described by the spec, as a total function over the
scanned window: first `# ` heading without a bracket, else first non-blank
line without brackets, else the first line of the window. -/
def extract_title_spec (content : String) (max_lines : Nat) : String :=
  let lines := (splitOnNl content.data).take max_lines
  match lines.find? (fun l => startsWithH1 l && !(hasChar '[' l)) with
  | some l => ⟨to_snake_caseL (l.drop 2)⟩
  | none =>
    match lines.find? (fun l =>
        !(pyStripL l).isEmpty && !(hasChar '[' l) && !(hasChar ']' l)) with
    | some l => ⟨to_snake_caseL (pyStripL l)⟩
    | none => ⟨to_snake_caseL (pyStripL (lines.headD []))⟩

/-- Modelled from the claim's words for get_directory_from_url: the URL's
hostname — the netloc with any userinfo (up to the last `@`) and any `:port`
suffix removed, lowercased. -/
def hostnameOf (url : String) : String :=
  let n := (netlocOf url).data
  let afterAt := (n.reverse.takeWhile (fun c => !(decide (c = '@')))).reverse
  ⟨toLowerL (afterAt.takeWhile (fun c => !(decide (c = ':'))))⟩

/-- Modelled from the claim's words: the hostname with one leading `www.`
removed and the final dot-segment removed. -/
def get_directory_claim (url : String) : String :=
  ⟨stripTld (stripWww (hostnameOf url).data)⟩

/-- Remove the suffix from the last dot onward, provided the string contains
a dot that is not its final character; otherwise leave it unchanged. -/
def remove_final_segment_spec (d : List Char) : List Char :=
  if hasChar '.' d && !(decide (d.getLast? = some '.')) then
    (((d.reverse.dropWhile (fun c => !(decide (c = '.')))).drop 1)).reverse
  else d

/- ---------- helper lemmas ---------- -/

theorem alGet_alSet_self {α : Type} (l : List (String × α)) (k : String) (v : α) :
    alGet (alSet l k v) k = some v := by
  induction l with
  | nil => simp [alGet, alSet]
  | cons p rest ih =>
    obtain ⟨k1, v1⟩ := p
    by_cases h : k1 = k
    · simp [alGet, alSet, h]
    · simp [alGet, alSet, h, ih]

theorem alGet_alSet_ne {α : Type} (l : List (String × α)) (k k1 : String) (v : α)
    (h : k1 ≠ k) : alGet (alSet l k v) k1 = alGet l k1 := by
  induction l with
  | nil => simp [alGet, alSet, Ne.symm h]
  | cons p rest ih =>
    obtain ⟨k2, v2⟩ := p
    by_cases h2 : k2 = k
    · subst h2
      simp [alGet, alSet, Ne.symm h]
    · by_cases h3 : k2 = k1 <;> simp [alGet, alSet, h2, h3, ih, h]

theorem mem_setAdd (s : List String) (x y : String) :
    y ∈ setAdd s x ↔ y = x ∨ y ∈ s := by
  unfold setAdd
  split
  · constructor
    · exact fun h => Or.inr h
    · rintro (rfl | h) <;> assumption
  · simp [List.mem_cons]

theorem mem_collapseAux (b : Bool) (l : List Char) (c : Char)
    (h : c ∈ collapseAux b l) : c = '_' ∨ isSep c = false := by
  induction l generalizing b with
  | nil => simp [collapseAux] at h
  | cons x xs ih =>
    simp only [collapseAux] at h
    by_cases hx : isSep x
    · simp only [hx, if_true] at h
      by_cases hb : b
      · simp only [hb, if_true] at h
        exact ih _ h
      · simp only [hb, if_false] at h
        rcases List.mem_cons.mp h with rfl | h2
        · exact Or.inl rfl
        · exact ih _ h2
    · simp only [hx, if_false] at h
      rcases List.mem_cons.mp h with rfl | h2
      · right
        simpa using hx
      · exact ih _ h2

theorem dropWhile_eq_self_of (p : Char → Bool) (l : List Char)
    (h : ∀ c ∈ l, p c = false) : l.dropWhile p = l := by
  cases l with
  | nil => rfl
  | cons x xs =>
    rw [List.dropWhile_cons]
    simp [h x (List.mem_cons_self x xs)]

theorem pyStripL_eq_self (l : List Char) (h : ∀ c ∈ l, pyIsSpace c = false) :
    pyStripL l = l := by
  unfold pyStripL
  rw [dropWhile_eq_self_of _ _ h]
  rw [dropWhile_eq_self_of _ _ (fun c hc => h c (List.mem_reverse.mp hc))]
  exact List.reverse_reverse l

/- ---------- C6 ---------- -/

/-- C6 counterexample: the code does not trim leading or trailing
underscores — Python's final `.strip()` removes only whitespace, and none
remains after the separator runs were replaced by underscores.  On `" hello "`
the code yields `"_hello_"` while the claim's description yields `"hello"`. -/
theorem to_snake_case_trims_cx :
    to_snake_case " hello " = "_hello_" ∧
      to_snake_case_claim " hello " = "hello" ∧
      to_snake_case " hello " ≠ to_snake_case_claim " hello " := by
  refine ⟨by decide, by decide, by decide⟩

/-- C6 (amended): to_snake_case removes characters outside word characters,
whitespace and hyphen, collapses every run of hyphens/whitespace into a
single underscore and lowercases the result; the final whitespace strip is a
no-op, so leading and trailing underscores are kept, not trimmed. -/
theorem to_snake_case_keeps_underscores (s : String) :
    to_snake_case s = to_snake_case_amended s := by
  unfold to_snake_case to_snake_case_amended to_snake_caseL
  congr 1
  unfold toLowerL
  congr 1
  apply pyStripL_eq_self
  intro c hc
  rcases mem_collapseAux false _ c hc with rfl | h
  · decide
  · unfold isSep at h
    exact (Bool.or_eq_false_iff.mp h).1

/- ---------- C5 ---------- -/

/-- C5 counterexample: a success-status record whose file write fails is NOT
added to the in-memory cache — the cache update sits after the write inside
the same try block, so the exception skips it.  Here the domain does not even
get a cache entry. -/
theorem add_metadata_write_failure_cx :
    alGet ((add_metadata (initManager true) []
      { path := "t.md", title := "t", url := "u", domain := "d",
        status := "success", error_str := "" } false).1.processed_urls) "d"
      = none := by
  rfl

/-- C5 (amended): when add_metadata fails to write the domain's ledger file,
the error is logged and the run continues, but the in-memory
processed-successfully cache update is skipped along with the file update:
the manager state and the filesystem are returned unchanged. -/
theorem add_metadata_write_failure_skips_cache (m : MetadataManager) (fs : FS)
    (a : ArticleMetadata) : add_metadata m fs a false = (m, fs) := by
  rfl

/- ---------- C4 ---------- -/

/-- C4: if the shared fetch/transform phase of a batch raises, convert_urls
returns no Documents at all and performs no ledger writes (the filesystem is
unchanged, so the skipped URLs' ledgers are untouched); the error surfaces
only as an empty result. -/
theorem convert_urls_batch_error_empty (m : MetadataManager) (fs : FS)
    (urls : List String) (e : String) (errs : List Bool) :
    (convert_urls m fs urls (Except.error e) errs).1 = [] ∧
      (convert_urls m fs urls (Except.error e) errs).2.2 = fs := by
  constructor <;>
  · simp only [convert_urls]
    split
    · rfl
    · split
      · rfl
      · rfl

/- ---------- C10 ---------- -/

theorem processItem_success_url (u c : String) (e : Bool) (d : Document)
    (a : ArticleMetadata) (h : processItem u c e = .success d a) :
    d.url = u ∧ a.url = u := by
  simp only [processItem] at h
  split at h
  · simp at h
  · split at h
    · simp at h
    · split at h
      · simp at h
      · injection h with h1 h2
        subst h1
        subst h2
        exact ⟨rfl, rfl⟩

theorem batch_documents_urls_sublist (items : List (String × String × Bool)) :
    ((processBatchItems items).documents.map (fun d => d.url)).Sublist
      (items.map (fun it => it.1)) := by
  induction items with
  | nil => simp [processBatchItems]
  | cons it rest ih =>
    obtain ⟨u, c, e⟩ := it
    simp only [processBatchItems, List.map_cons]
    cases h : processItem u c e with
    | rateLimited => exact ih.cons u
    | failed => exact ih.cons u
    | success d a =>
      have hu := (processItem_success_url u c e d a h).1
      simp only [List.map_cons, hu]
      exact ih.cons₂ u

theorem zip_fst_sublist {α β : Type} (l1 : List α) (l2 : List β) :
    ((l1.zip l2).map Prod.fst).Sublist l1 := by
  induction l1 generalizing l2 with
  | nil => simp
  | cons x xs ih =>
    cases l2 with
    | nil => simp
    | cons y ys => simpa using (ih ys).cons₂ x

theorem filter_urls_fst_sublist (fs : FS) (urls : List String) :
    ∀ m, ((filter_urls m fs urls).1).Sublist urls := by
  induction urls with
  | nil =>
    intro m
    simp [filter_urls]
  | cons u rest ih =>
    intro m
    simp only [filter_urls]
    split
    · exact (ih _).cons₂ u
    · exact (ih _).cons u

/-- C10: convert_urls preserves the relative input order of the urls that
yield Documents — the urls of the returned Documents form a sublist of the
input url list. -/
theorem convert_urls_preserves_input_order (m : MetadataManager) (fs : FS)
    (urls : List String) (fetched : Except String (List String))
    (errs : List Bool) :
    ((convert_urls m fs urls fetched errs).1.map (fun d => d.url)).Sublist
      urls := by
  simp only [convert_urls]
  split
  · simp
  · split
    · simp
    · cases fetched with
      | error e => simp
      | ok contents =>
        refine (batch_documents_urls_sublist _).trans ?_
        refine List.Sublist.trans ?_ (filter_urls_fst_sublist fs urls m)
        exact zip_fst_sublist _ _

/- ---------- C7 ---------- -/

theorem splitOnNl_ne_nil (l : List Char) : splitOnNl l ≠ [] := by
  cases l with
  | nil => simp [splitOnNl]
  | cons c rest =>
    simp only [splitOnNl]
    split
    · simp
    · split <;> simp

theorem lines_take_ne_nil (content : String) (n : Nat) (hn : 1 ≤ n) :
    (splitOnNl content.data).take n ≠ [] := by
  obtain ⟨x, xs, hx⟩ :=
    List.exists_cons_of_ne_nil (splitOnNl_ne_nil content.data)
  cases n with
  | zero => omega
  | succ m =>
    rw [hx]
    simp

theorem mem_dropWhile_iff (p : Char → Bool) (c : Char) (hc : p c = false)
    (l : List Char) : c ∈ l.dropWhile p ↔ c ∈ l := by
  constructor
  · intro h
    exact List.Sublist.subset (List.dropWhile_sublist _) h
  · intro h
    induction l with
    | nil => simp at h
    | cons x xs ih =>
      rw [List.dropWhile_cons]
      by_cases hx : p x = true
      · simp only [hx, if_true]
        rcases List.mem_cons.mp h with rfl | h2
        · rw [hc] at hx
          exact absurd hx (by simp)
        · exact ih h2
      · simp only [hx, if_false]
        exact h

theorem hasChar_pyStripL (c : Char) (hc : pyIsSpace c = false) (l : List Char) :
    hasChar c (pyStripL l) = hasChar c l := by
  unfold hasChar
  simp only [decide_eq_decide]
  unfold pyStripL
  rw [List.mem_reverse, mem_dropWhile_iff _ _ hc, List.mem_reverse,
    mem_dropWhile_iff _ _ hc]

theorem strip_bracket_pred (l : List Char) :
    (!(pyStripL l).isEmpty && !(hasChar '[' (pyStripL l)) &&
        !(hasChar ']' (pyStripL l)))
      = (!(pyStripL l).isEmpty && !(hasChar '[' l) && !(hasChar ']' l)) := by
  rw [hasChar_pyStripL '[' (by decide) l, hasChar_pyStripL ']' (by decide) l]

/-- C7 counterexample: with scan limit 0 the scanned window of lines is empty
and the final fallback `lines[0]` raises IndexError — extract_title_from_content
does not return a string for every scan limit. -/
theorem extract_title_zero_limit_cx :
    extract_title_from_content "# My Article Title\n\nBody text" 0 = none := by
  rfl

/-- C7 (amended): for every content string and every positive scan limit,
extract_title_from_content returns a string, chosen first-match-wins over the
first scan_limit lines — the snake-cased text after `# ` of the first such
heading containing no `[`, else the snake-cased first non-blank line
containing neither `[` nor `]`, else the snake-cased first line of the
scanned window; with scan limit 0 the code instead fails (see the
counterexample).  The content `"# My Article Title\n\nBody text"` yields the
title `"my_article_title"`. -/
theorem extract_title_positive_limit_total :
    (∀ (content : String) (n : Nat), 1 ≤ n →
      extract_title_from_content content n = some (extract_title_spec content n)) ∧
    extract_title_from_content "# My Article Title\n\nBody text" =
      some "my_article_title" := by
  constructor
  · intro content n hn
    simp only [extract_title_from_content, extract_title_spec]
    rw [show (fun l : List Char =>
        !(pyStripL l).isEmpty && !(hasChar '[' (pyStripL l)) &&
          !(hasChar ']' (pyStripL l)))
        = (fun l : List Char =>
          !(pyStripL l).isEmpty && !(hasChar '[' l) && !(hasChar ']' l)) from
      funext fun l => strip_bracket_pred l]
    cases h1 : ((splitOnNl content.data).take n).find?
        (fun l => startsWithH1 l && !(hasChar '[' l)) with
    | some l => rfl
    | none =>
      cases h2 : ((splitOnNl content.data).take n).find?
          (fun l => !(pyStripL l).isEmpty && !(hasChar '[' l) &&
            !(hasChar ']' l)) with
      | some l => rfl
      | none =>
        obtain ⟨x, xs, hx⟩ :=
          List.exists_cons_of_ne_nil (lines_take_ne_nil content n hn)
        rw [hx]
        rfl
  · rfl

/-- C7 witness. -/
theorem extract_title_positive_limit_total_witness :
    extract_title_from_content "hello" 1 = some "hello" :=
  (extract_title_positive_limit_total.1 "hello" 1 (by decide)).trans (by rfl)

/- ---------- C8 ---------- -/

theorem drop_takeWhile_length (p : Char → Bool) (l : List Char) :
    l.drop (l.takeWhile p).length = l.dropWhile p := by
  induction l with
  | nil => rfl
  | cons x xs ih =>
    rw [List.takeWhile_cons, List.dropWhile_cons]
    by_cases hx : p x = true
    · simp only [hx, if_true, List.length_cons, List.drop_succ_cons]
      exact ih
    · simp [hx]

theorem dropWhile_head_false (p : Char → Bool) (l t : List Char) (c : Char)
    (h : l.dropWhile p = c :: t) : p c = false := by
  induction l with
  | nil => simp [List.dropWhile] at h
  | cons x xs ih =>
    rw [List.dropWhile_cons] at h
    by_cases hx : p x = true
    · rw [if_pos hx] at h
      exact ih h
    · rw [if_neg hx] at h
      cases h
      simpa using hx

theorem dropWhile_eq_nil_all (p : Char → Bool) (l : List Char)
    (h : l.dropWhile p = []) : ∀ c ∈ l, p c = true := by
  have h2 := List.takeWhile_append_dropWhile p l
  rw [h, List.append_nil] at h2
  intro c hc
  rw [← h2] at hc
  exact List.mem_takeWhile_imp hc

theorem stripTld_eq_spec (d : List Char) :
    stripTld d = remove_final_segment_spec d := by
  simp only [stripTld, remove_final_segment_spec]
  by_cases hseg :
      (d.reverse.takeWhile (fun c => !(decide (c = '.')))).isEmpty = true
  · rw [if_pos hseg]
    cases hr : d.reverse with
    | nil =>
      have hd : d = [] := by simpa using congrArg List.reverse hr
      subst hd
      rfl
    | cons c r2 =>
      rw [hr, List.takeWhile_cons] at hseg
      by_cases hc : (!(decide (c = '.'))) = true
      · rw [if_pos hc] at hseg
        simp at hseg
      · have hcdot : c = '.' := by simpa using hc
        have hlast : d.getLast? = some '.' := by
          rw [← List.head?_reverse, hr, hcdot]
          rfl
        have : (hasChar '.' d && !(decide (d.getLast? = some '.'))) = false := by
          rw [hlast]
          simp
        rw [this]
        simp
  · rw [if_neg hseg]
    rw [drop_takeWhile_length]
    cases hdw : d.reverse.dropWhile (fun c => !(decide (c = '.'))) with
    | nil =>
      have hall := dropWhile_eq_nil_all _ _ hdw
      have hnd : hasChar '.' d = false := by
        unfold hasChar
        simp only [decide_eq_false_iff_not]
        intro hmem
        have := hall '.' (List.mem_reverse.mpr hmem)
        simp at this
      rw [hnd]
      simp
    | cons c rest2 =>
      have hc : (fun c : Char => !(decide (c = '.'))) c = false :=
        dropWhile_head_false _ _ _ _ hdw
      have hcdot : c = '.' := by simpa using hc
      subst hcdot
      have h1 : hasChar '.' d = true := by
        unfold hasChar
        simp only [decide_eq_true_eq]
        have hm : '.' ∈ d.reverse := by
          have hsub : List.Sublist
              (List.dropWhile (fun c : Char => !(decide (c = '.'))) d.reverse)
              d.reverse := List.dropWhile_sublist _
          refine hsub.subset ?_
          rw [hdw]
          exact List.mem_cons_self _ _
        exact List.mem_reverse.mp hm
      have h2 : decide (d.getLast? = some '.') = false := by
        have htw : d.reverse.takeWhile (fun c => !(decide (c = '.'))) ≠ [] := by
          intro hnil
          rw [hnil] at hseg
          exact hseg rfl
        obtain ⟨s, seg2, hs⟩ := List.exists_cons_of_ne_nil htw
        have hmem : s ∈ d.reverse.takeWhile (fun c => !(decide (c = '.'))) := by
          rw [hs]
          exact List.mem_cons_self _ _
        have hps := List.mem_takeWhile_imp hmem
        have hsne : s ≠ '.' := by simpa using hps
        have hhead : d.reverse.head? = some s := by
          have ht := List.takeWhile_append_dropWhile
            (fun c : Char => !(decide (c = '.'))) d.reverse
          rw [← ht, hs]
          rfl
        rw [← List.head?_reverse, hhead]
        simpa using hsne
      rw [h1, h2]
      rfl

/-- C8 counterexample: get_directory_from_url operates on the netloc, not the
hostname — for a URL with userinfo the code keeps the `alice@` prefix (so the
anchored `www.` strip also fails to fire), while the claim's hostname-based
description yields `example`. -/
theorem get_directory_userinfo_cx :
    get_directory_from_url "http://alice@www.example.com/" = "alice@www.example" ∧
      get_directory_claim "http://alice@www.example.com/" = "example" ∧
      get_directory_from_url "http://alice@www.example.com/" ≠
        get_directory_claim "http://alice@www.example.com/" := by
  refine ⟨by decide, by decide, by decide⟩

/-- C8 (amended): get_directory_from_url returns the URL's netloc (the
authority component, which equals the hostname only when the URL carries no
userinfo and no port) with one leading `www.` prefix removed when present,
and with the suffix from the last dot onward removed when the remainder
contains a dot that is not its final character (otherwise unchanged);
`"https://www.example.co.uk/page"` yields `"example.co"` (exactly one
trailing segment stripped), and malformed input yields the empty string
rather than an error. -/
theorem get_directory_netloc_spec :
    (∀ url : String, get_directory_from_url url =
      ⟨remove_final_segment_spec (stripWww (netlocOf url).data)⟩) ∧
    get_directory_from_url "https://www.example.co.uk/page" = "example.co" ∧
    get_directory_from_url "not a url" = "" := by
  refine ⟨?_, by decide, by decide⟩
  intro url
  unfold get_directory_from_url
  rw [stripTld_eq_spec]

/- ---------- C1 ---------- -/

theorem runAdds_cons (m : MetadataManager) (fs : FS) (a : ArticleMetadata)
    (ms : List ArticleMetadata) :
    runAdds m fs (a :: ms)
      = runAdds (add_metadata m fs a true).1 (add_metadata m fs a true).2 ms := by
  rfl

theorem add_metadata_skip (m : MetadataManager) (fs : FS) (a : ArticleMetadata)
    (w : Bool) : ((add_metadata m fs a w).1).skip_existing = m.skip_existing := by
  simp only [add_metadata]
  split
  · split <;> rfl
  · rfl

theorem add_metadata_cache_same (m : MetadataManager) (fs : FS)
    (a : ArticleMetadata) (domain : String) (S : List String)
    (hS : alGet m.processed_urls domain = some S) (hdom : a.domain = domain)
    (hst : a.status = "success") :
    alGet (add_metadata m fs a true).1.processed_urls domain
      = some (setAdd S a.url) := by
  simp only [add_metadata, hst, if_true]
  rw [hdom]
  rw [alGet_alSet_self, hS]
  rfl

theorem add_metadata_cache_other (m : MetadataManager) (fs : FS)
    (a : ArticleMetadata) (domain : String) (S : List String)
    (hS : alGet m.processed_urls domain = some S)
    (h : ¬(a.domain = domain ∧ a.status = "success")) :
    alGet (add_metadata m fs a true).1.processed_urls domain = some S := by
  by_cases hst : a.status = "success"
  · have hdom : a.domain ≠ domain := fun hd => h ⟨hd, hst⟩
    simp only [add_metadata, hst, if_true]
    rw [alGet_alSet_ne _ _ _ _ (fun hd => hdom hd.symm)]
    exact hS
  · simp only [add_metadata, hst, if_false]
    exact hS

theorem runAdds_cache (domain : String) :
    ∀ (ms : List ArticleMetadata) (m : MetadataManager) (fs : FS)
      (S : List String), alGet m.processed_urls domain = some S →
      ∃ S2, alGet (runAdds m fs ms).1.processed_urls domain = some S2 ∧
        (runAdds m fs ms).1.skip_existing = m.skip_existing ∧
        ∀ v, v ∈ S2 ↔ (v ∈ S ∨ ∃ a, a ∈ ms ∧ a.domain = domain ∧
          a.status = "success" ∧ a.url = v) := by
  intro ms
  induction ms with
  | nil =>
    intro m fs S hS
    exact ⟨S, hS, rfl, by simp⟩
  | cons a rest ih =>
    intro m fs S hS
    rw [runAdds_cons]
    by_cases hP : a.domain = domain ∧ a.status = "success"
    · obtain ⟨hdom, hst⟩ := hP
      obtain ⟨S2, h1, h2, h3⟩ := ih (add_metadata m fs a true).1
        (add_metadata m fs a true).2 (setAdd S a.url)
        (add_metadata_cache_same m fs a domain S hS hdom hst)
      refine ⟨S2, h1, ?_, ?_⟩
      · rw [h2]
        exact add_metadata_skip m fs a true
      · intro v
        rw [h3 v, mem_setAdd]
        constructor
        · rintro ((rfl | hv) | ⟨b, hb, hbd, hbs, hbu⟩)
          · exact Or.inr ⟨a, List.mem_cons_self a rest, hdom, hst, rfl⟩
          · exact Or.inl hv
          · exact Or.inr ⟨b, List.mem_cons_of_mem a hb, hbd, hbs, hbu⟩
        · rintro (hv | ⟨b, hb, hbd, hbs, hbu⟩)
          · exact Or.inl (Or.inr hv)
          · rcases List.mem_cons.mp hb with rfl | hb2
            · exact Or.inl (Or.inl hbu.symm)
            · exact Or.inr ⟨b, hb2, hbd, hbs, hbu⟩
    · obtain ⟨S2, h1, h2, h3⟩ := ih (add_metadata m fs a true).1
        (add_metadata m fs a true).2 S
        (add_metadata_cache_other m fs a domain S hS hP)
      refine ⟨S2, h1, ?_, ?_⟩
      · rw [h2]
        exact add_metadata_skip m fs a true
      · intro v
        rw [h3 v]
        constructor
        · rintro (hv | ⟨b, hb, hbd, hbs, hbu⟩)
          · exact Or.inl hv
          · exact Or.inr ⟨b, List.mem_cons_of_mem a hb, hbd, hbs, hbu⟩
        · rintro (hv | ⟨b, hb, hbd, hbs, hbu⟩)
          · exact Or.inl hv
          · rcases List.mem_cons.mp hb with rfl | hb2
            · exact absurd ⟨hbd, hbs⟩ hP
            · exact Or.inr ⟨b, hb2, hbd, hbs, hbu⟩

theorem should_process_load (skip : Bool) (fs0 : FS) (u0 domain : String) :
    alGet ((should_process_url (initManager skip) fs0 u0 domain).2).processed_urls
        domain = some (ledgerSuccessUrls fs0 domain) ∧
      ((should_process_url (initManager skip) fs0 u0 domain).2).skip_existing
        = skip := by
  simp only [should_process_url, initManager]
  cases hfs : alGet fs0 domain with
  | none =>
    simp [load_domain_metadata, hfs, alGet_alSet_self, ledgerSuccessUrls,
      rowsOf, successUrlsOfFile, alGet]
  | some rows =>
    simp [load_domain_metadata, hfs, alGet_alSet_self, ledgerSuccessUrls,
      rowsOf, alGet]

theorem should_process_result (m : MetadataManager) (fs : FS)
    (url domain : String) (S : List String)
    (hS : alGet m.processed_urls domain = some S) :
    ((should_process_url m fs url domain).1 = false
      ↔ (m.skip_existing = true ∧ url ∈ S)) := by
  simp only [should_process_url, hS]
  cases hsk : m.skip_existing <;> simp [hsk, hS]

/-- C1: after a fresh manager's first reference to a domain (which loads that
domain's ledger) and any sequence of add_metadata calls, should_process_url
returns false exactly when skip-existing is enabled and the url either had a
status=success row in the ledger as loaded, or was the subject of a
status=success add_metadata call since; urls recorded only as failed or
rate_limited are not among the loaded success urls, so they yield true. -/
theorem should_process_url_success_iff (skip : Bool) (fs0 : FS)
    (u0 url domain : String) (ms : List ArticleMetadata) :
    ((should_process_url
        (runAdds (should_process_url (initManager skip) fs0 u0 domain).2 fs0 ms).1
        (runAdds (should_process_url (initManager skip) fs0 u0 domain).2 fs0 ms).2
        url domain).1 = false)
      ↔ (skip = true ∧ (url ∈ ledgerSuccessUrls fs0 domain ∨
          ∃ a, a ∈ ms ∧ a.domain = domain ∧ a.status = "success" ∧
            a.url = url)) := by
  obtain ⟨hc, hskip⟩ := should_process_load skip fs0 u0 domain
  obtain ⟨S2, h1, h2, h3⟩ := runAdds_cache domain ms _ fs0 _ hc
  rw [should_process_result _ _ url domain S2 h1, h2, hskip, h3 url]

/- ---------- C2 ---------- -/

theorem dictInsert_absent (d : List (String × ArticleMetadata)) (k : String)
    (v : ArticleMetadata) (h : k ∉ d.map Prod.fst) :
    dictInsert d k v = d ++ [(k, v)] := by
  induction d with
  | nil => rfl
  | cons p rest ih =>
    obtain ⟨k1, v1⟩ := p
    simp only [List.map_cons, List.mem_cons] at h
    push_neg at h
    simp only [dictInsert]
    rw [if_neg (fun he => h.1 he.symm)]
    rw [ih h.2]
    rfl

theorem foldl_dictInsert_pairs (rows : List ArticleMetadata) :
    ∀ acc : List (String × ArticleMetadata),
      ((acc.map Prod.fst ++ rows.map (fun r => r.url)).Nodup) →
      rows.foldl (fun d r => dictInsert d r.url r) acc
        = acc ++ rows.map (fun r => (r.url, r)) := by
  induction rows with
  | nil =>
    intro acc _
    simp
  | cons r rest ih =>
    intro acc h
    rw [List.nodup_append] at h
    have hnotin : r.url ∉ acc.map Prod.fst := by
      intro hin
      exact h.2.2 hin (by simp)
    simp only [List.foldl_cons]
    rw [dictInsert_absent acc r.url r hnotin]
    rw [ih (acc ++ [(r.url, r)]) ?hnd]
    · simp
    case hnd =>
      rw [List.nodup_append]
      obtain ⟨ha, hrc, hd⟩ := h
      simp only [List.map_cons, List.nodup_cons] at hrc
      refine ⟨?_, hrc.2, ?_⟩
      · rw [List.map_append, List.nodup_append]
        refine ⟨ha, by simp, ?_⟩
        intro x hx h2
        simp only [List.map_cons, List.map_nil, List.mem_singleton] at h2
        subst h2
        exact hd hx (by simp)
      · intro x hx h2
        rw [List.map_append] at hx
        rcases List.mem_append.mp hx with hx | hx
        · refine hd hx ?_
          simp only [List.map_cons]
          exact List.mem_cons_of_mem _ h2
        · simp only [List.map_cons, List.map_nil, List.mem_singleton] at hx
          subst hx
          exact hrc.1 h2

theorem dict_eq_pairs (rows : List ArticleMetadata)
    (hnd : (rows.map (fun r => r.url)).Nodup) :
    dictOfRows rows = rows.map (fun r => (r.url, r)) := by
  unfold dictOfRows
  rw [foldl_dictInsert_pairs rows [] (by simpa using hnd)]
  rfl

theorem map_replace_id (rows : List ArticleMetadata) (u : String)
    (a : ArticleMetadata) (h : ∀ r ∈ rows, r.url ≠ u) :
    rows.map (fun r => if r.url = u then a else r) = rows := by
  induction rows with
  | nil => rfl
  | cons r rest ih =>
    simp only [List.map_cons]
    rw [if_neg (h r (List.mem_cons_self r rest))]
    rw [ih (fun r2 h2 => h r2 (List.mem_cons_of_mem r h2))]

theorem map_pair_snd (l : List ArticleMetadata) :
    (l.map (fun r => (r.url, r))).map Prod.snd = l := by
  induction l with
  | nil => rfl
  | cons r rest ih => simp only [List.map_cons, ih]

theorem mergeRows_absent (old : List ArticleMetadata) (a : ArticleMetadata)
    (hnd : (old.map (fun r => r.url)).Nodup)
    (h : a.url ∉ old.map (fun r => r.url)) :
    mergeRows old a = old ++ [a] := by
  unfold mergeRows
  rw [dict_eq_pairs old hnd]
  rw [dictInsert_absent _ _ _ (by simpa [List.map_map, Function.comp] using h)]
  rw [List.map_append, map_pair_snd]
  rfl

theorem mergeRows_present (old : List ArticleMetadata) (a : ArticleMetadata)
    (hnd : (old.map (fun r => r.url)).Nodup)
    (h : a.url ∈ old.map (fun r => r.url)) :
    mergeRows old a = old.map (fun r => if r.url = a.url then a else r) := by
  unfold mergeRows
  rw [dict_eq_pairs old hnd]
  induction old with
  | nil => simp at h
  | cons r rest ih =>
    simp only [List.map_cons, List.nodup_cons] at hnd ⊢
    simp only [List.map_cons, List.mem_cons] at h
    simp only [dictInsert]
    by_cases hr : r.url = a.url
    · rw [if_pos hr]
      have hrest : rest.map (fun r => if r.url = a.url then a else r) = rest := by
        refine map_replace_id rest a.url a ?_
        intro r2 h2 he
        refine hnd.1 ?_
        rw [← hr] at he
        rw [← he]
        exact List.mem_map_of_mem _ h2
      simp only [List.map_cons]
      rw [map_pair_snd, if_pos hr, hrest]
    · have hmem : a.url ∈ rest.map (fun r => r.url) := by
        rcases h with he | he
        · exact absurd he.symm hr
        · exact he
      rw [if_neg hr]
      simp only [List.map_cons]
      rw [ih hnd.2 hmem, if_neg hr]

theorem map_url_replace (old : List ArticleMetadata) (a : ArticleMetadata) :
    (old.map (fun r => if r.url = a.url then a else r)).map (fun r => r.url)
      = old.map (fun r => r.url) := by
  induction old with
  | nil => rfl
  | cons r rest ih =>
    simp only [List.map_cons, ih]
    by_cases hr : r.url = a.url
    · rw [if_pos hr, ← hr]
    · rw [if_neg hr]

theorem mergeRows_urls_nodup (old : List ArticleMetadata) (a : ArticleMetadata)
    (hnd : (old.map (fun r => r.url)).Nodup) :
    ((mergeRows old a).map (fun r => r.url)).Nodup := by
  by_cases hmem : a.url ∈ old.map (fun r => r.url)
  · rw [mergeRows_present old a hnd hmem, map_url_replace]
    exact hnd
  · rw [mergeRows_absent old a hnd hmem]
    rw [List.map_append, List.nodup_append]
    refine ⟨hnd, by simp, ?_⟩
    intro x hx h2
    simp only [List.map_cons, List.map_nil, List.mem_singleton] at h2
    subst h2
    exact hmem hx

theorem findRow_not_mem (rows : List ArticleMetadata) (u : String)
    (h : u ∉ rows.map (fun r => r.url)) : findRow rows u = none := by
  induction rows with
  | nil => rfl
  | cons r rest ih =>
    simp only [List.map_cons, List.mem_cons] at h
    push_neg at h
    simp only [findRow]
    rw [if_neg (fun he => h.1 he.symm)]
    exact ih h.2

theorem findRow_append_left (l1 l2 : List ArticleMetadata) (u : String)
    (r : ArticleMetadata) (h : findRow l1 u = some r) :
    findRow (l1 ++ l2) u = some r := by
  induction l1 with
  | nil => simp [findRow] at h
  | cons x xs ih =>
    simp only [findRow] at h ⊢
    split at h
    · rw [if_pos (by assumption)]
      exact h
    · rw [if_neg (by assumption)]
      exact ih h

theorem findRow_append_right (l1 l2 : List ArticleMetadata) (u : String)
    (h : findRow l1 u = none) : findRow (l1 ++ l2) u = findRow l2 u := by
  induction l1 with
  | nil => rfl
  | cons x xs ih =>
    simp only [findRow] at h ⊢
    split at h
    · exact absurd h (by simp)
    · rw [if_neg (by assumption)]
      exact ih h

theorem findRow_replace_self (old : List ArticleMetadata) (a : ArticleMetadata)
    (h : a.url ∈ old.map (fun r => r.url)) :
    findRow (old.map (fun r => if r.url = a.url then a else r)) a.url
      = some a := by
  induction old with
  | nil => simp at h
  | cons r rest ih =>
    simp only [List.map_cons, List.mem_cons] at h
    simp only [List.map_cons, findRow]
    by_cases hr : r.url = a.url
    · rw [if_pos hr]
      rw [if_pos rfl]
    · rw [if_neg hr]
      rw [if_neg hr]
      refine ih ?_
      rcases h with he | he
      · exact absurd he.symm hr
      · exact he

theorem findRow_replace_other (old : List ArticleMetadata) (a : ArticleMetadata)
    (u : String) (hu : u ≠ a.url) :
    findRow (old.map (fun r => if r.url = a.url then a else r)) u
      = findRow old u := by
  induction old with
  | nil => rfl
  | cons r rest ih =>
    simp only [List.map_cons, findRow]
    by_cases hr : r.url = a.url
    · rw [if_pos hr]
      rw [if_neg (fun he => hu he.symm), if_neg (by rw [hr]; exact fun he => hu he.symm)]
      exact ih
    · rw [if_neg hr]
      by_cases hru : r.url = u
      · rw [if_pos hru, if_pos hru]
      · rw [if_neg hru, if_neg hru]
        exact ih

theorem findRow_mergeRows (old : List ArticleMetadata) (a : ArticleMetadata)
    (u : String) (hnd : (old.map (fun r => r.url)).Nodup) :
    findRow (mergeRows old a) u
      = if u = a.url then some a else findRow old u := by
  by_cases hmem : a.url ∈ old.map (fun r => r.url)
  · rw [mergeRows_present old a hnd hmem]
    by_cases hu : u = a.url
    · rw [if_pos hu, hu]
      exact findRow_replace_self old a hmem
    · rw [if_neg hu]
      exact findRow_replace_other old a u hu
  · rw [mergeRows_absent old a hnd hmem]
    by_cases hu : u = a.url
    · rw [if_pos hu, hu]
      rw [findRow_append_right _ _ _ (findRow_not_mem old a.url hmem)]
      simp [findRow]
    · rw [if_neg hu]
      cases hfo : findRow old u with
      | some r => exact findRow_append_left _ _ _ _ hfo
      | none =>
        rw [findRow_append_right _ _ _ hfo]
        simp only [findRow]
        rw [if_neg (fun he => hu he.symm)]

theorem add_metadata_rows_same (m : MetadataManager) (fs : FS)
    (a : ArticleMetadata) (domain : String) (hdom : a.domain = domain) :
    rowsOf (add_metadata m fs a true).2 domain
      = mergeRows (rowsOf fs domain) a := by
  simp only [add_metadata, if_true]
  unfold rowsOf
  rw [hdom, alGet_alSet_self]
  rfl

theorem add_metadata_rows_other (m : MetadataManager) (fs : FS)
    (a : ArticleMetadata) (domain : String) (hdom : a.domain ≠ domain) :
    rowsOf (add_metadata m fs a true).2 domain = rowsOf fs domain := by
  simp only [add_metadata, if_true]
  unfold rowsOf
  rw [alGet_alSet_ne _ _ _ _ (fun h => hdom h.symm)]

theorem runAdds_rows (domain : String) :
    ∀ (ms : List ArticleMetadata) (m : MetadataManager) (fs : FS),
      ((rowsOf fs domain).map (fun r => r.url)).Nodup →
      ((((rowsOf (runAdds m fs ms).2 domain).map (fun r => r.url)).Nodup) ∧
        ∀ u, findRow (rowsOf (runAdds m fs ms).2 domain) u
          = match lastAdd ms domain u with
            | some a => some a
            | none => findRow (rowsOf fs domain) u) := by
  intro ms
  induction ms with
  | nil =>
    intro m fs hnd
    exact ⟨hnd, fun u => rfl⟩
  | cons a rest ih =>
    intro m fs hnd
    rw [runAdds_cons]
    by_cases hdom : a.domain = domain
    · have hfs1 := add_metadata_rows_same m fs a domain hdom
      have hnd1 : ((rowsOf (add_metadata m fs a true).2 domain).map
          (fun r => r.url)).Nodup := by
        rw [hfs1]
        exact mergeRows_urls_nodup _ _ hnd
      obtain ⟨hndF, hfind⟩ := ih (add_metadata m fs a true).1
        (add_metadata m fs a true).2 hnd1
      refine ⟨hndF, ?_⟩
      intro u
      rw [hfind u, hfs1, findRow_mergeRows _ _ _ hnd]
      cases hl : lastAdd rest domain u with
      | some b => simp [lastAdd, hl]
      | none =>
        simp only [lastAdd, hl]
        by_cases hu : u = a.url
        · rw [if_pos hu, if_pos ⟨hdom, hu.symm⟩]
        · rw [if_neg hu, if_neg (fun hco => hu hco.2.symm)]
    · have hfs1 := add_metadata_rows_other m fs a domain hdom
      obtain ⟨hndF, hfind⟩ := ih (add_metadata m fs a true).1
        (add_metadata m fs a true).2 (by rw [hfs1]; exact hnd)
      refine ⟨hndF, ?_⟩
      intro u
      rw [hfind u, hfs1]
      cases hl : lastAdd rest domain u with
      | some b => simp [lastAdd, hl]
      | none =>
        simp only [lastAdd, hl]
        rw [if_neg (fun hco => hdom hco.1)]

/-- C2: starting from an absent or duplicate-free ledger file for a domain,
after any sequence of add_metadata calls the domain's ledger file has at most
one row per url, and the row stored for a url is the one from the latest
add_metadata call addressed to that url and domain (last write wins). -/
theorem add_metadata_last_write_wins (m : MetadataManager) (fs0 : FS)
    (domain : String) (ms : List ArticleMetadata)
    (h : ((rowsOf fs0 domain).map (fun r => r.url)).Nodup) :
    ((((rowsOf (runAdds m fs0 ms).2 domain).map (fun r => r.url)).Nodup) ∧
      ∀ u a, lastAdd ms domain u = some a →
        findRow (rowsOf (runAdds m fs0 ms).2 domain) u = some a) := by
  obtain ⟨h1, h2⟩ := runAdds_rows domain ms m fs0 h
  refine ⟨h1, fun u a ha => ?_⟩
  rw [h2 u, ha]

/-- C2 witness: two adds for the same url in the same domain, starting from
an absent ledger file; the stored row is the second one. -/
theorem add_metadata_last_write_wins_witness :
    findRow (rowsOf (runAdds (initManager true) []
      [⟨"p1", "t1", "u", "d", "success", ""⟩,
       ⟨"p2", "t2", "u", "d", "failed", "e"⟩]).2 "d") "u"
      = some ⟨"p2", "t2", "u", "d", "failed", "e"⟩ :=
  (add_metadata_last_write_wins (initManager true) [] "d"
    [⟨"p1", "t1", "u", "d", "success", ""⟩,
     ⟨"p2", "t2", "u", "d", "failed", "e"⟩] (by decide)).2 "u" _ (by decide)

/- ---------- C3 and C9 ---------- -/

theorem filter_over_map {α β : Type} (f : β → α) (p : α → Bool) (l : List β) :
    (l.map f).filter p = (l.filter (fun x => p (f x))).map f := by
  induction l with
  | nil => rfl
  | cons x xs ih =>
    simp only [List.map_cons, List.filter_cons]
    cases hp : p (f x) <;> simp [hp, ih]

theorem filter_filter_and {α : Type} (p q : α → Bool) (l : List α) :
    (l.filter p).filter q = l.filter (fun x => p x && q x) := by
  induction l with
  | nil => rfl
  | cons x xs ih =>
    simp only [List.filter_cons]
    cases hp : p x <;> cases hq : q x <;> simp [hp, hq, ih]

theorem filter_nil_of {α : Type} (p : α → Bool) (l : List α)
    (h : ∀ x ∈ l, p x = false) : l.filter p = [] := by
  induction l with
  | nil => rfl
  | cons x xs ih =>
    rw [List.filter_cons]
    rw [h x (List.mem_cons_self x xs)]
    exact ih (fun y hy => h y (List.mem_cons_of_mem x hy))

theorem key_unique (items : List (String × String × Bool)) (u c : String)
    (e : Bool) (hnd : (items.map (fun it => it.1)).Nodup)
    (hmem : (u, c, e) ∈ items) :
    ∀ it ∈ items, it.1 = u → it = (u, c, e) := by
  induction items with
  | nil => simp at hmem
  | cons x rest ih =>
    simp only [List.map_cons, List.nodup_cons] at hnd
    intro it hit h1
    rcases List.mem_cons.mp hit with rfl | hit2
    · rcases List.mem_cons.mp hmem with heq | hmem2
      · exact heq.symm
      · exfalso
        refine hnd.1 ?_
        rw [h1]
        exact List.mem_map_of_mem (fun it => it.1) hmem2
    · rcases List.mem_cons.mp hmem with heq | hmem2
      · exfalso
        refine hnd.1 ?_
        rw [← heq]
        simpa [h1] using List.mem_map_of_mem (fun it => it.1) hit2
      · exact ih hnd.2 hmem2 it hit2 h1

theorem filter_no_key (rest : List (String × String × Bool)) (u : String)
    (q : (String × String × Bool) → Bool)
    (h : u ∉ rest.map (fun it => it.1)) :
    rest.filter (fun it => q it && decide (it.1 = u)) = [] := by
  refine filter_nil_of _ _ ?_
  intro it hit
  have hne : it.1 ≠ u := by
    intro he
    exact h (he ▸ List.mem_map_of_mem (fun it => it.1) hit)
  simp [hne]

theorem filter_key_unique (items : List (String × String × Bool)) (u c : String)
    (e : Bool) (q : (String × String × Bool) → Bool)
    (hnd : (items.map (fun it => it.1)).Nodup) (hmem : (u, c, e) ∈ items) :
    items.filter (fun it => q it && decide (it.1 = u))
      = if q (u, c, e) then [(u, c, e)] else [] := by
  induction items with
  | nil => simp at hmem
  | cons x rest ih =>
    simp only [List.map_cons, List.nodup_cons] at hnd
    rcases List.mem_cons.mp hmem with heq | hmem2
    · have hx : x = (u, c, e) := heq.symm
      subst hx
      rw [List.filter_cons]
      have hrest : rest.filter (fun it => q it && decide (it.1 = u)) = [] := by
        refine filter_no_key rest u q ?_
        simpa using hnd.1
      cases hq : q (u, c, e) <;> simp [hq, hrest]
    · have hx1 : x.1 ≠ u := by
        intro he
        refine hnd.1 ?_
        rw [he]
        exact List.mem_map_of_mem (fun it => it.1) hmem2
      rw [List.filter_cons]
      have hcond : (q x && decide (x.1 = u)) = false := by simp [hx1]
      rw [hcond]
      simp only [Bool.false_eq_true, if_false]
      exact ih hnd.2 hmem2

theorem batch_rl_urls (items : List (String × String × Bool)) :
    (processBatchItems items).rateLimitedUrls
      = (items.filter (fun it =>
          decide (processItem it.1 it.2.1 it.2.2 = ItemResult.rateLimited))).map
          (fun it => it.1) := by
  induction items with
  | nil => rfl
  | cons it rest ih =>
    obtain ⟨u, c, e⟩ := it
    simp only [processBatchItems, List.filter_cons]
    cases h : processItem u c e with
    | rateLimited => simp [ih]
    | failed => simp [ih]
    | success d a => simp [ih]

theorem batch_fail_urls (items : List (String × String × Bool)) :
    (processBatchItems items).failedUrls
      = (items.filter (fun it =>
          decide (processItem it.1 it.2.1 it.2.2 = ItemResult.failed))).map
          (fun it => it.1) := by
  induction items with
  | nil => rfl
  | cons it rest ih =>
    obtain ⟨u, c, e⟩ := it
    simp only [processBatchItems, List.filter_cons]
    cases h : processItem u c e with
    | rateLimited => simp [ih]
    | failed => simp [ih]
    | success d a => simp [ih]

theorem batch_doc_mem (items : List (String × String × Bool)) (dd : Document)
    (h : dd ∈ (processBatchItems items).documents) :
    ∃ it ∈ items, ∃ mm, processItem it.1 it.2.1 it.2.2
      = ItemResult.success dd mm := by
  induction items with
  | nil => simp [processBatchItems] at h
  | cons it rest ih =>
    obtain ⟨u, c, e⟩ := it
    simp only [processBatchItems] at h
    cases hp : processItem u c e with
    | rateLimited =>
      rw [hp] at h
      obtain ⟨it2, hit2, mm, hmm⟩ := ih h
      exact ⟨it2, List.mem_cons_of_mem _ hit2, mm, hmm⟩
    | failed =>
      rw [hp] at h
      obtain ⟨it2, hit2, mm, hmm⟩ := ih h
      exact ⟨it2, List.mem_cons_of_mem _ hit2, mm, hmm⟩
    | success d a =>
      rw [hp] at h
      rcases List.mem_cons.mp h with rfl | h2
      · exact ⟨(u, c, e), List.mem_cons_self _ _, a, hp⟩
      · obtain ⟨it2, hit2, mm, hmm⟩ := ih h2
        exact ⟨it2, List.mem_cons_of_mem _ hit2, mm, hmm⟩

theorem batch_meta_mem (items : List (String × String × Bool))
    (mm : ArticleMetadata)
    (h : mm ∈ (processBatchItems items).successfulMeta) :
    ∃ it ∈ items, ∃ dd, processItem it.1 it.2.1 it.2.2
      = ItemResult.success dd mm := by
  induction items with
  | nil => simp [processBatchItems] at h
  | cons it rest ih =>
    obtain ⟨u, c, e⟩ := it
    simp only [processBatchItems] at h
    cases hp : processItem u c e with
    | rateLimited =>
      rw [hp] at h
      obtain ⟨it2, hit2, dd, hdd⟩ := ih h
      exact ⟨it2, List.mem_cons_of_mem _ hit2, dd, hdd⟩
    | failed =>
      rw [hp] at h
      obtain ⟨it2, hit2, dd, hdd⟩ := ih h
      exact ⟨it2, List.mem_cons_of_mem _ hit2, dd, hdd⟩
    | success d a =>
      rw [hp] at h
      rcases List.mem_cons.mp h with rfl | h2
      · exact ⟨(u, c, e), List.mem_cons_self _ _, d, hp⟩
      · obtain ⟨it2, hit2, dd, hdd⟩ := ih h2
        exact ⟨it2, List.mem_cons_of_mem _ hit2, dd, hdd⟩

theorem zip3_fst_nodup (urls contents : List String) (errs : List Bool)
    (hnd : urls.Nodup) :
    ((zip3 urls contents errs).map (fun it => it.1)).Nodup := by
  have hs : ((zip3 urls contents errs).map (fun it => it.1)).Sublist urls :=
    zip_fst_sublist urls (contents.zip errs)
  exact hs.nodup hnd

theorem filter_url_over_mk (items : List (String × String × Bool))
    (q : (String × String × Bool) → Bool) (mk : String → ArticleMetadata)
    (hmk : ∀ x, (mk x).url = x) (u c : String) (e : Bool)
    (hnd : (items.map (fun it => it.1)).Nodup) (hmem : (u, c, e) ∈ items) :
    (((items.filter q).map (fun it => it.1)).map mk).filter
        (fun a2 => decide (a2.url = u))
      = if q (u, c, e) then [mk u] else [] := by
  rw [List.map_map, filter_over_map]
  have hpred : (fun x : String × String × Bool =>
      decide (((mk ∘ fun it => it.1) x).url = u))
      = (fun x : String × String × Bool => decide (x.1 = u)) := by
    funext x
    simp [Function.comp, hmk]
  rw [hpred, filter_filter_and, filter_key_unique items u c e q hnd hmem]
  cases hq : q (u, c, e) <;> simp [Function.comp]

theorem batch_meta_filter_nil (items : List (String × String × Bool))
    (u c : String) (e : Bool) (hnd : (items.map (fun it => it.1)).Nodup)
    (hmem : (u, c, e) ∈ items)
    (hni : ∀ dd mm, processItem u c e ≠ ItemResult.success dd mm) :
    (processBatchItems items).successfulMeta.filter
      (fun a2 => decide (a2.url = u)) = [] := by
  refine filter_nil_of _ _ ?_
  intro mm hmm
  obtain ⟨it, hit, dd, hdd⟩ := batch_meta_mem items mm hmm
  obtain ⟨u2, c2, e2⟩ := it
  have hmu : mm.url = u2 := (processItem_success_url u2 c2 e2 dd mm hdd).2
  by_cases hq : mm.url = u
  · exfalso
    have h2 := key_unique items u c e hnd hmem (u2, c2, e2) hit
      (hmu.symm.trans hq)
    simp only [Prod.mk.injEq] at h2
    obtain ⟨rfl, rfl, rfl⟩ := h2
    exact hni dd mm hdd
  · simp [hq]

theorem batch_doc_no_url (items : List (String × String × Bool))
    (u c : String) (e : Bool) (hnd : (items.map (fun it => it.1)).Nodup)
    (hmem : (u, c, e) ∈ items)
    (hni : ∀ dd mm, processItem u c e ≠ ItemResult.success dd mm) :
    ∀ dd ∈ (processBatchItems items).documents, dd.url ≠ u := by
  intro dd hdd he
  obtain ⟨it, hit, mm, hmm⟩ := batch_doc_mem items dd hdd
  obtain ⟨u2, c2, e2⟩ := it
  have hdu : dd.url = u2 := (processItem_success_url u2 c2 e2 dd mm hmm).1
  have h2 := key_unique items u c e hnd hmem (u2, c2, e2) hit
    (hdu.symm.trans he)
  simp only [Prod.mk.injEq] at h2
  obtain ⟨rfl, rfl, rfl⟩ := h2
  exact hni dd mm hmm

/-- C3: a URL whose transformed markdown contains the case-insensitive
substring "too many requests" or "rate limit" yields no Document, and the
queued ledger entries contain exactly one entry for that URL: status
rate_limited, path failed_downloads.md, title failed_download. -/
theorem batch_rate_limited_classification (urls contents : List String)
    (errs : List Bool) (hnd : urls.Nodup)
    (hc : contents.length = urls.length) (hel : errs.length = urls.length)
    (u c : String) (e : Bool) (hmem : (u, c, e) ∈ zip3 urls contents errs)
    (hrl : isRateLimited c = true) :
    ((∀ dd ∈ (processBatchItems (zip3 urls contents errs)).documents,
        dd.url ≠ u) ∧
      (queuedEntries (processBatchItems (zip3 urls contents errs))).filter
          (fun a2 => decide (a2.url = u))
        = [create_error_metadata u (get_directory_from_url u)
            "Rate limited - too many requests" "rate_limited"]) := by
  have hndk := zip3_fst_nodup urls contents errs hnd
  have hitem : processItem u c e = ItemResult.rateLimited := by
    simp [processItem, hrl]
  have hni : ∀ dd mm, processItem u c e ≠ ItemResult.success dd mm := by
    intro dd mm hcon
    rw [hitem] at hcon
    simp at hcon
  constructor
  · exact batch_doc_no_url _ u c e hndk hmem hni
  · unfold queuedEntries
    rw [List.filter_append, List.filter_append]
    rw [batch_rl_urls, batch_fail_urls]
    rw [filter_url_over_mk (zip3 urls contents errs) _ _ (fun x => rfl)
        u c e hndk hmem,
      filter_url_over_mk (zip3 urls contents errs) _ _ (fun x => rfl)
        u c e hndk hmem]
    rw [batch_meta_filter_nil _ u c e hndk hmem hni]
    simp [hitem]

/-- C3 witness: a two-url batch whose first content contains "Rate Limit". -/
theorem batch_rate_limited_classification_witness :
    (queuedEntries (processBatchItems
        (zip3 ["a", "b"] ["Rate Limit hit", "hello"] [false, true]))).filter
        (fun a2 => decide (a2.url = "a"))
      = [create_error_metadata "a" (get_directory_from_url "a")
          "Rate limited - too many requests" "rate_limited"] :=
  (batch_rate_limited_classification ["a", "b"] ["Rate Limit hit", "hello"]
    [false, true] (by decide) (by decide) (by decide) "a" "Rate Limit hit"
    false (by decide) (by decide)).2

/-- C9: a URL whose per-URL processing raises an unexpected error (after the
rate-limit check, which itself cannot raise) yields no Document and exactly
one queued ledger entry with status failed and error_str "Processing failed",
the description the code attaches to per-URL failures. -/
theorem batch_unexpected_error_failed_entry (urls contents : List String)
    (errs : List Bool) (hnd : urls.Nodup)
    (hc : contents.length = urls.length) (hel : errs.length = urls.length)
    (u c : String) (hmem : (u, c, true) ∈ zip3 urls contents errs)
    (hrl : isRateLimited c = false) :
    ((∀ dd ∈ (processBatchItems (zip3 urls contents errs)).documents,
        dd.url ≠ u) ∧
      (queuedEntries (processBatchItems (zip3 urls contents errs))).filter
          (fun a2 => decide (a2.url = u))
        = [create_error_metadata u (get_directory_from_url u)
            "Processing failed"]) := by
  have hndk := zip3_fst_nodup urls contents errs hnd
  have hitem : processItem u c true = ItemResult.failed := by
    simp [processItem, hrl]
  have hni : ∀ dd mm, processItem u c true ≠ ItemResult.success dd mm := by
    intro dd mm hcon
    rw [hitem] at hcon
    simp at hcon
  constructor
  · exact batch_doc_no_url _ u c true hndk hmem hni
  · unfold queuedEntries
    rw [List.filter_append, List.filter_append]
    rw [batch_rl_urls, batch_fail_urls]
    rw [filter_url_over_mk (zip3 urls contents errs) _ _ (fun x => rfl)
        u c true hndk hmem,
      filter_url_over_mk (zip3 urls contents errs) _ _ (fun x => rfl)
        u c true hndk hmem]
    rw [batch_meta_filter_nil _ u c true hndk hmem hni]
    simp [hitem]

/-- C9 witness: the second url of the batch hits the failure oracle. -/
theorem batch_unexpected_error_failed_entry_witness :
    (queuedEntries (processBatchItems
        (zip3 ["a", "b"] ["Rate Limit hit", "hello"] [false, true]))).filter
        (fun a2 => decide (a2.url = "b"))
      = [create_error_metadata "b" (get_directory_from_url "b")
          "Processing failed"] :=
  (batch_unexpected_error_failed_entry ["a", "b"] ["Rate Limit hit", "hello"]
    [false, true] (by decide) (by decide) (by decide) "b" "hello"
    (by decide) (by decide)).2
